import Mathlib

set_option maxHeartbeats 1000000

/-!
Shallow embedding of the movie-chatbot recommendation core (`src/app.py`):
the deduplicator `unique_movies`, the year-balanced sampler
`balanced_sample_by_year`, mix-preference classification `infer_mix`, the
mix-count resolution inside `build_recommendations`, and the pool builder,
together with theorems settling the specification claims about them.
-/

/-- A fetched movie record; only the fields the core logic reads are kept.
`none` models a key that is absent from the underlying mapping. -/
structure Movie where
  id : Option Int
  original_language : Option String
  release_date : Option String
deriving DecidableEq, Repr

/-- `INDIAN_LANG_CODES` (app.py line 13). -/
def INDIAN_LANG_CODES : List String := ["hi", "ta", "te", "ml", "kn"]

/-- `GLOBAL_REGIONS` (app.py line 14). -/
def GLOBAL_REGIONS : List String := ["US", "KR", "JP", "FR", "ES"]

/-- Python `str.lower()` restricted to ASCII letters (the only characters
occurring in language codes and marker tokens). -/
def pyLower (s : String) : String := String.mk (s.data.map Char.toLower)

/-- Python `str.strip()`: drop whitespace from both ends. -/
def pyStrip (s : String) : String :=
  String.mk (((s.data.dropWhile Char.isWhitespace).reverse.dropWhile
    Char.isWhitespace).reverse)

/-- The language test `(m.get("original_language") or "").lower()` used at
app.py lines 150, 213 and 221-222. -/
def langOf (m : Movie) : String := pyLower (m.original_language.getD "")

/-- Evaluation of a nonempty all-digit character list as a number, the
digit part of Python `int(...)`. -/
def parseDigits : List Char → Option Nat
  | [] => none
  | cs => if cs.all Char.isDigit then
      some (cs.foldl (fun n c => n * 10 + (c.toNat - 48)) 0) else none

/-- Python `int(s)` on an optional minus sign followed by digits; any
other shape raises, which is modelled as `none`. -/
def pyInt? (cs : List Char) : Option Int :=
  match cs with
  | '-' :: rest => (parseDigits rest).map (fun v => -(v : Int))
  | cs => (parseDigits cs).map (fun v => (v : Int))

/-- `year_from_date` (app.py lines 105-111): `None` on the empty string,
otherwise `int(d[:4])` with a parse failure mapped to `None`. -/
def year_from_date (d : String) : Option Int :=
  if d = "" then none else pyInt? (d.data.take 4)

/-- The year of a record, `year_from_date(m.get("release_date", ""))`
(app.py line 119). -/
def movieYear (m : Movie) : Option Int := year_from_date (m.release_date.getD "")

/-- The loop body of `unique_movies` (app.py lines 94-102).  `seen` is the
set of identities already emitted; a record is kept exactly when
`m.get("id")` is truthy (present and nonzero) and not yet seen. -/
def uniqueGo (seen : List Int) : List Movie → List Movie
  | [] => []
  | m :: ms =>
    match m.id with
    | none => uniqueGo seen ms
    | some k => if k ≠ 0 ∧ k ∉ seen then m :: uniqueGo (k :: seen) ms else uniqueGo seen ms

/-- `unique_movies` (app.py lines 94-102). -/
def unique_movies (movies : List Movie) : List Movie := uniqueGo [] movies

/-- Rounding a rational to the nearest integer with ties to even: the
semantics both of Python `round` on the exact value of a float (app.py
lines 226 and 228) and of the mantissa rounding inside IEEE-754 binary64
arithmetic. -/
def pyRound (q : ℚ) : Int :=
  if q - (⌊q⌋ : ℚ) < 1/2 then ⌊q⌋
  else if 1/2 < q - (⌊q⌋ : ℚ) then ⌊q⌋ + 1
  else if ⌊q⌋ % 2 = 0 then ⌊q⌋ else ⌊q⌋ + 1

/-- The exact rational value of the IEEE-754 binary64 double nearest the
literal `0.7`, namely `3152519739159347 / 2^52`. -/
def double07 : ℚ := 3152519739159347 / 4503599627370496

/-- The exact rational value of the IEEE-754 binary64 double nearest the
literal `0.3`, namely `5404319552844595 / 2^54`. -/
def double03 : ℚ := 5404319552844595 / 18014398509481984

/-- Rounding of a positive rational to 53 significant binary digits with
ties to even: the result of an IEEE-754 binary64 operation whose exact
value is `q` (exponent range taken unbounded, so overflow to infinity at
magnitudes beyond 2^1024 is not modelled).  Nonpositive arguments, which
do not arise from the nonnegative products used here, map to 0. -/
def fl53 (q : ℚ) : ℚ :=
  if q ≤ 0 then 0
  else ((pyRound (q * (2:ℚ) ^ (52 - Int.log 2 q)) : ℚ) * (2:ℚ) ^ (Int.log 2 q - 52))

/-- The mix-preference normalization at app.py lines 188-190: anything
outside the three known values falls back to `"50_50"`. -/
def normalizeMix (mix : String) : String :=
  if mix = "50_50" ∨ mix = "more_indian" ∨ mix = "more_global" then mix else "50_50"

/-- The local ("Indian") share of the requested count, app.py lines
225-230: `int(round(count * 0.7))`, `int(round(count * 0.3))`, or
`count // 2`.  The float expression `count * 0.7` is modelled exactly:
the integer `count` is converted to a double (a 53-bit rounding, exact
for counts below 2^53) and multiplied by the double nearest `0.7`, with
the product rounded to 53 bits again; Python `round` then rounds the
resulting double's exact value half-to-even. -/
def indCount (mix : String) (count : Nat) : Int :=
  if normalizeMix mix = "more_indian" then
    pyRound (fl53 (fl53 (count : ℚ) * double07))
  else if normalizeMix mix = "more_global" then
    pyRound (fl53 (fl53 (count : ℚ) * double03))
  else ((count / 2 : Nat) : Int)

/-- The resolved pair `(ind_n, glob_n)` of app.py lines 225-231, with
`glob_n = count - ind_n`. -/
def resolveMix (mix : String) (count : Nat) : Int × Int :=
  (indCount mix count, (count : Int) - indCount mix count)

/-- Matching of a candidate substring at the head of a character list. -/
def leadMatch : List Char → List Char → Bool
  | [], _ => true
  | _ :: _, [] => false
  | a :: as, b :: bs => a == b && leadMatch as bs

/-- Occurrence of `needle` anywhere in the character list. -/
def hasSub (needle : List Char) : List Char → Bool
  | [] => needle.isEmpty
  | c :: hs => leadMatch needle (c :: hs) || hasSub needle hs

/-- Python substring containment `needle in hay`. -/
def strIn (needle hay : String) : Bool := hasSub needle.data hay.data

/-- `infer_mix` (app.py lines 171-177): lowercase and strip the text, then
classify by substring markers, Indian markers first. -/
def infer_mix (text : String) : String :=
  let t := pyStrip (pyLower text)
  if strIn "ind" t then "more_indian"
  else if strIn "glob" t || strIn "holly" t || strIn "other" t then "more_global"
  else "50_50"

/-- The descending list of distinct years of the deduplicated pool:
`sorted(buckets.keys(), reverse=True)` (app.py line 128).  The bucket
dictionary holds one key per parseable year occurring in the pool. -/
def yearsDesc (movies : List Movie) : List Int :=
  (List.insertionSort (fun a b : Int => a ≤ b) (movies.filterMap movieYear).dedup).reverse

/-- The year bucket for `y` (app.py lines 117-122): the records of the
deduplicated pool whose parsed year is `y`, in pool order, then shuffled
in place (app.py lines 129-130).  The shuffle is an explicit parameter. -/
def bucketOf (shuffle : List Movie → List Movie) (movies : List Movie) (y : Int) :
    List Movie :=
  shuffle (movies.filter (fun m => decide (movieYear m = some y)))

/-- One pass of the inner for-loop of app.py lines 136-141: visit the
years in order, append the bucket element at the shared position `idx`
when it exists, and break as soon as the overall target is reached.
`need` is how many records are still missing from the target when the
pass starts. -/
def rrPass (bucket : Int → List Movie) (idx : Nat) : List Int → Nat → List Movie
  | [], _ => []
  | y :: ys, need =>
    match (bucket y)[idx]? with
    | none => rrPass bucket idx ys need
    | some m => if need ≤ 1 then [m] else m :: rrPass bucket idx ys (need - 1)

/-- The while-loop of app.py lines 134-144, one fuel unit per iteration:
an iteration runs only while fewer than `n` records are picked, breaks
when its pass appends nothing, and otherwise advances the shared position
index.  Fuel `n + 1` is enough because every continuing iteration appends
at least one record to `picked`. -/
def rrLoop (bucket : Int → List Movie) (years : List Int) (n : Nat) :
    Nat → Nat → List Movie → List Movie
  | 0, _, picked => picked
  | fuel + 1, idx, picked =>
    if picked.length < n then
      if rrPass bucket idx years (n - picked.length) = [] then picked
      else rrLoop bucket years n fuel (idx + 1)
        (picked ++ rrPass bucket idx years (n - picked.length))
    else picked

/-- `balanced_sample_by_year` (app.py lines 114-146), with the calls to
`random.shuffle` abstracted into the explicit `shuffle` parameter (the
fallback path shuffles the whole deduplicated pool, the bucketed path
shuffles each year bucket). -/
def balanced_sample_by_year (shuffle : List Movie → List Movie)
    (pool : List Movie) (n : Nat) : List Movie :=
  let movies := unique_movies pool
  let years := yearsDesc movies
  if years = [] then (shuffle movies).take n
  else (rrLoop (bucketOf shuffle movies) years n (n + 1) 0 []).take n

/-- The number of unique, dateable records of a pool. -/
def dateableCount (pool : List Movie) : Nat :=
  ((unique_movies pool).filter (fun m => (movieYear m).isSome)).length

/-- Concrete records used by the witness statements. -/
def mov1 : Movie := ⟨some 1, some "en", some "2023-01-05"⟩

/-- Concrete record with a second year, for the witness statements. -/
def mov2 : Movie := ⟨some 2, some "hi", some "2022-03-04"⟩

/-- Concrete record whose id is the falsy integer 0. -/
def movZero : Movie := ⟨some 0, some "en", some "2021-07-07"⟩

/-- The user preference mapping handed to `build_recommendations`; `none`
models a missing key. -/
structure Prefs where
  fav_movie : Option String
  fav_actor : Option String
  fav_song : Option String
  genre : Option String
  mix : Option String

/-- The movie-data gateway, the external collaborator wrapping `tmdb_get`
(app.py lines 21-91): each operation either returns data or fails with a
fetch error message.  The fixed 20-year date window of app.py lines
180-182 is ambient state of the gateway and is not modelled explicitly. -/
structure Gateway where
  genres : Except String (List (String × Int))
  discoverLang : String → Nat → Option Int → Except String (List Movie)
  discoverRegion : String → Nat → Option Int → Except String (List Movie)
  personId : String → Except String (Option Int)
  actorPage : Int → Nat → Except String (List Movie)

/-- Sequential fetching with `extend` over a list of call descriptors
(the nested for-loops of app.py lines 193-210 and 77-90): the first
failing call aborts the whole sequence with its error. -/
def fetchConcat {α : Type} (fetch : α → Except String (List Movie)) :
    List α → Except String (List Movie)
  | [] => Except.ok []
  | a :: as => do
    let d ← fetch a
    let rest ← fetchConcat fetch as
    pure (d ++ rest)

/-- The language/page pairs of the Indian-pool loops (app.py lines
194-200): language-major, pages 1 and 2. -/
def langPages : List (String × Nat) :=
  (INDIAN_LANG_CODES.map (fun l => [(l, 1), (l, 2)])).flatten

/-- The region/page pairs of the global-pool loops (app.py lines
204-210). -/
def regionPages : List (String × Nat) :=
  (GLOBAL_REGIONS.map (fun r => [(r, 1), (r, 2)])).flatten

/-- The genre id resolution of app.py lines 185-186: lowercase and strip
the genre text; empty text means no filter, otherwise the catalog lookup
(a miss is silently `none`). -/
def genreIdOf (prefs : Prefs) (gm : List (String × Int)) : Option Int :=
  let t := pyStrip (pyLower (prefs.genre.getD ""))
  if t = "" then none else gm.lookup t

/-- The pure pool assembly of app.py lines 212-222 applied to the fetched
raw lists: filter Indian-language records out of the region results, and
when an actor was resolved split the actor movies by the language test,
appending each part to its pool. -/
def poolsFromFetches (indianRaw globalRaw : List Movie)
    (actorRaw : Option (List Movie)) : List Movie × List Movie :=
  let gp := globalRaw.filter (fun m => !(decide (langOf m ∈ INDIAN_LANG_CODES)))
  match actorRaw with
  | some am =>
    (indianRaw ++ am.filter (fun m => decide (langOf m ∈ INDIAN_LANG_CODES)),
     gp ++ am.filter (fun m => !(decide (langOf m ∈ INDIAN_LANG_CODES))))
  | none => (indianRaw, gp)

/-- The actor-boost fetches of app.py lines 216-222: nothing when no
favorite actor is given or no person matches; otherwise 3 pages of the
person's movies (`movies_by_actor`, app.py lines 75-91). -/
def actorFetch (g : Gateway) (prefs : Prefs) : Except String (Option (List Movie)) :=
  if prefs.fav_actor.getD "" = "" then Except.ok none
  else do
    let pid ← g.personId (prefs.fav_actor.getD "")
    match pid with
    | none => pure none
    | some p => do
      let am ← fetchConcat (fun pg => g.actorPage p pg) [1, 2, 3]
      pure (some am)

/-- The pool-building part of `build_recommendations` (app.py lines
184-222): genre catalog and id, the Indian and global discovery loops,
the language filter and the actor boost. -/
def buildPools (g : Gateway) (prefs : Prefs) :
    Except String (List Movie × List Movie) := do
  let gm ← g.genres
  let indianRaw ← fetchConcat
    (fun lp => g.discoverLang lp.1 lp.2 (genreIdOf prefs gm)) langPages
  let globalRaw ← fetchConcat
    (fun rp => g.discoverRegion rp.1 rp.2 (genreIdOf prefs gm)) regionPages
  let actorRaw ← actorFetch g prefs
  pure (poolsFromFetches indianRaw globalRaw actorRaw)

/-- `build_recommendations` (app.py lines 179-237): build the pools,
resolve the mix counts, sample each pool, deduplicate the concatenation
of the picks and truncate to `count`. -/
def build_recommendations (shuffle : List Movie → List Movie) (g : Gateway)
    (prefs : Prefs) (count : Nat) : Except String (List Movie) := do
  let pools ← buildPools g prefs
  pure ((unique_movies
    (balanced_sample_by_year shuffle pools.1
        (resolveMix (prefs.mix.getD "50_50") count).1.toNat
      ++ balanced_sample_by_year shuffle pools.2
        (resolveMix (prefs.mix.getD "50_50") count).2.toNat)).take count)

/-- A fully successful stub gateway: one region page returns one Indian
and one global record, everything else is empty. -/
def gOk : Gateway :=
  ⟨Except.ok [], fun _ _ _ => Except.ok [],
   fun r p _ => if r = "US" ∧ p = 1 then Except.ok [mov2, mov1] else Except.ok [],
   fun _ => Except.ok none, fun _ _ => Except.ok []⟩

/-- A gateway that succeeds everywhere except on the single
language-discovery call for language "ta", page 2. -/
def gMid : Gateway :=
  ⟨Except.ok [],
   fun l p _ => if l = "ta" ∧ p = 2 then Except.error "net" else Except.ok [],
   fun _ _ _ => Except.ok [], fun _ => Except.ok none, fun _ _ => Except.ok []⟩

/-- An empty preference set. -/
def noPrefs : Prefs := ⟨none, none, none, none, none⟩

/-!  Theorems.  -/

theorem uniqueGo_sublist (seen : List Int) (l : List Movie) :
    List.Sublist (uniqueGo seen l) l := by
  induction l generalizing seen with
  | nil => simp [uniqueGo]
  | cons m ms ih =>
    cases hid : m.id with
    | none => simpa [uniqueGo, hid] using (ih seen).cons m
    | some k =>
      by_cases hc : k ≠ 0 ∧ k ∉ seen
      · simpa [uniqueGo, hid, hc] using (ih (k :: seen)).cons₂ m
      · simpa [uniqueGo, hid, hc] using (ih seen).cons m

theorem uniqueGo_mem_spec (seen : List Int) (l : List Movie) (m : Movie)
    (hm : m ∈ uniqueGo seen l) :
    ∃ k : Int, m.id = some k ∧ k ≠ 0 ∧ k ∉ seen ∧
      ∃ l1 l2, l = l1 ++ m :: l2 ∧ ∀ m' ∈ l1, m'.id ≠ some k := by
  induction l generalizing seen with
  | nil => simp [uniqueGo] at hm
  | cons a ms ih =>
    cases hid : a.id with
    | none =>
      rw [show uniqueGo seen (a :: ms) = uniqueGo seen ms by simp [uniqueGo, hid]] at hm
      obtain ⟨k, hk, hk0, hks, l1, l2, hdec, hfirst⟩ := ih seen hm
      refine ⟨k, hk, hk0, hks, a :: l1, l2, by simp [hdec], ?_⟩
      intro m' hm'
      rcases List.mem_cons.mp hm' with h | h
      · subst h; simp [hid]
      · exact hfirst m' h
    | some k0 =>
      by_cases hc : k0 ≠ 0 ∧ k0 ∉ seen
      · rw [show uniqueGo seen (a :: ms) = a :: uniqueGo (k0 :: seen) ms by
          simp [uniqueGo, hid, hc]] at hm
        rcases List.mem_cons.mp hm with h | h
        · subst h
          exact ⟨k0, hid, hc.1, hc.2, [], ms, by simp, by simp⟩
        · obtain ⟨k, hk, hk0, hks, l1, l2, hdec, hfirst⟩ := ih (k0 :: seen) h
          have hkk0 : k ≠ k0 := fun he => hks (he ▸ List.mem_cons_self k0 seen)
          refine ⟨k, hk, hk0, fun hs => hks (List.mem_cons_of_mem _ hs),
            a :: l1, l2, by simp [hdec], ?_⟩
          intro m' hm'
          rcases List.mem_cons.mp hm' with h' | h'
          · subst h'; simp [hid]; exact fun he => hkk0 he.symm
          · exact hfirst m' h'
      · rw [show uniqueGo seen (a :: ms) = uniqueGo seen ms by
          simp [uniqueGo, hid, hc]] at hm
        obtain ⟨k, hk, hk0, hks, l1, l2, hdec, hfirst⟩ := ih seen hm
        have hkk0 : k ≠ k0 := by
          intro he
          rcases not_and_or.mp hc with h0 | hseen
          · exact hk0 (by omega)
          · exact hks (he ▸ not_not.mp hseen)
        refine ⟨k, hk, hk0, hks, a :: l1, l2, by simp [hdec], ?_⟩
        intro m' hm'
        rcases List.mem_cons.mp hm' with h' | h'
        · subst h'; simp [hid]; exact fun he => hkk0 he.symm
        · exact hfirst m' h'

theorem uniqueGo_pairwise (seen : List Int) (l : List Movie) :
    List.Pairwise (fun a b => a.id ≠ b.id) (uniqueGo seen l) := by
  induction l generalizing seen with
  | nil => simp [uniqueGo]
  | cons m ms ih =>
    cases hid : m.id with
    | none => simpa [uniqueGo, hid] using ih seen
    | some k =>
      by_cases hc : k ≠ 0 ∧ k ∉ seen
      · rw [show uniqueGo seen (m :: ms) = m :: uniqueGo (k :: seen) ms by
          simp [uniqueGo, hid, hc]]
        refine List.pairwise_cons.mpr ⟨?_, ih (k :: seen)⟩
        intro b hb
        obtain ⟨k', hk', _, hks', _⟩ := uniqueGo_mem_spec _ _ _ hb
        have : k' ≠ k := fun he => hks' (he ▸ List.mem_cons_self k seen)
        rw [hid, hk']
        exact fun he => this (by injection he with h; exact h.symm)
      · simpa [uniqueGo, hid, hc] using ih seen

/-- C3: the deduplicator returns a subsequence of its input (hence
preserves relative order and never lengthens the list), no two retained
records share an identity, and every retained record carries a present
identity and is the first record of the input with that identity. -/
theorem unique_movies_spec (l : List Movie) :
    List.Sublist (unique_movies l) l
    ∧ (unique_movies l).length ≤ l.length
    ∧ List.Pairwise (fun a b => a.id ≠ b.id) (unique_movies l)
    ∧ ∀ m ∈ unique_movies l, ∃ k : Int, m.id = some k ∧
        ∃ l1 l2, l = l1 ++ m :: l2 ∧ ∀ m' ∈ l1, m'.id ≠ some k := by
  refine ⟨uniqueGo_sublist [] l, (uniqueGo_sublist [] l).length_le,
    uniqueGo_pairwise [] l, ?_⟩
  intro m hm
  obtain ⟨k, hk, _, _, l1, l2, hdec, hfirst⟩ := uniqueGo_mem_spec [] l m hm
  exact ⟨k, hk, l1, l2, hdec, hfirst⟩

/-- C3 witness: the spec of `unique_movies` evaluated on a concrete list. -/
theorem unique_movies_spec_witness :
    List.Sublist (unique_movies [mov1, movZero, mov1]) [mov1, movZero, mov1] :=
  (unique_movies_spec [mov1, movZero, mov1]).1

/-- C9: the deduplicator drops every record whose id is falsy, so a record
with id 0 never appears in its output even though 0 is a present,
non-null identity. -/
theorem unique_movies_drops_falsy_id (l : List Movie) (m : Movie)
    (hm : m ∈ unique_movies l) : m.id ≠ none ∧ m.id ≠ some 0 := by
  obtain ⟨k, hk, hk0, _, _⟩ := uniqueGo_mem_spec [] l m hm
  refine ⟨by simp [hk], ?_⟩
  rw [hk]
  exact fun he => hk0 (by injection he)

/-- C9 witness: on a concrete input holding a record with id 0, the record
with id 0 is dropped while the record with id 1 is kept and has a truthy
id. -/
theorem unique_movies_drops_falsy_id_witness :
    unique_movies [movZero, mov1] = [mov1]
    ∧ (mov1.id ≠ none ∧ mov1.id ≠ some 0) :=
  ⟨by decide, unique_movies_drops_falsy_id [movZero, mov1] mov1 (by decide)⟩

/-- C4: for every total count and every mix preference string, the
resolved pair of per-pool counts sums exactly to the total. -/
theorem mix_sum_invariant (mix : String) (n : Nat) :
    (resolveMix mix n).1 + (resolveMix mix n).2 = (n : Int) := by
  simp [resolveMix]

theorem floor_le_pyRound (q : ℚ) : ⌊q⌋ ≤ pyRound q := by
  unfold pyRound
  split_ifs <;> omega

theorem pyRound_le_ceil (q : ℚ) : pyRound q ≤ ⌈q⌉ := by
  have hceil : q ≤ (⌈q⌉ : ℚ) := Int.le_ceil q
  have hfloor : (⌊q⌋ : ℚ) ≤ q := Int.floor_le q
  unfold pyRound
  split_ifs with h1 h2 h3
  · exact Int.floor_le_ceil q
  all_goals
  · have hlt : (⌊q⌋ : ℚ) < q := by linarith
    have : (⌊q⌋ : ℚ) < (⌈q⌉ : ℚ) := lt_of_lt_of_le hlt hceil
    have : ⌊q⌋ < ⌈q⌉ := by exact_mod_cast this
    omega

theorem pyRound_bounds_of (q : ℚ) (n : Nat) (h0 : 0 ≤ q) (hn : q ≤ (n : ℚ)) :
    0 ≤ pyRound q ∧ pyRound q ≤ (n : Int) := by
  constructor
  · have : (0 : Int) ≤ ⌊q⌋ := Int.le_floor.mpr (by exact_mod_cast h0)
    exact le_trans this (floor_le_pyRound q)
  · have h2 : ⌈q⌉ ≤ (n : Int) := Int.ceil_le.mpr hn
    exact le_trans (pyRound_le_ceil q) h2

theorem pyRound_intCast (z : Int) : pyRound ((z : ℚ)) = z := by
  unfold pyRound
  norm_num [Int.floor_intCast]

theorem pyRound_le_add_half (q : ℚ) : (pyRound q : ℚ) ≤ q + 1/2 := by
  have hfl : (⌊q⌋ : ℚ) ≤ q := Int.floor_le q
  unfold pyRound
  split_ifs with h1 h2 h3
  · push_cast
    linarith
  · push_cast
    push_neg at h1
    linarith
  · push_cast
    linarith
  · push_cast
    push_neg at h1
    linarith

theorem fl53_nonneg (q : ℚ) (h : 0 ≤ q) : 0 ≤ fl53 q := by
  unfold fl53
  split_ifs with h0
  · exact le_refl 0
  · push_neg at h0
    have hs : (0:ℚ) ≤ q * (2:ℚ) ^ (52 - Int.log 2 q) := by positivity
    have h1 : (0:Int) ≤ ⌊q * (2:ℚ) ^ (52 - Int.log 2 q)⌋ :=
      Int.le_floor.mpr (by exact_mod_cast hs)
    have h2 := floor_le_pyRound (q * (2:ℚ) ^ (52 - Int.log 2 q))
    have h3 : (0:ℚ) ≤ (pyRound (q * (2:ℚ) ^ (52 - Int.log 2 q)) : ℚ) := by
      exact_mod_cast le_trans h1 h2
    exact mul_nonneg h3 (by positivity)

theorem fl53_le_mul (q : ℚ) (h : 0 ≤ q) :
    fl53 q ≤ q * (1 + (2:ℚ) ^ (-53 : Int)) := by
  unfold fl53
  split_ifs with h0
  · exact mul_nonneg h (by positivity)
  · push_neg at h0
    have hb : ((2:ℕ):ℚ) = (2:ℚ) := by norm_num
    have h2e : (2:ℚ) ^ (Int.log 2 q) ≤ q := by
      have := Int.zpow_log_le_self (b := 2) (R := ℚ) (by norm_num) h0
      rwa [hb] at this
    have hm := pyRound_le_add_half (q * (2:ℚ) ^ (52 - Int.log 2 q))
    have hkey : (pyRound (q * (2:ℚ) ^ (52 - Int.log 2 q)) : ℚ)
          * (2:ℚ) ^ (Int.log 2 q - 52)
        ≤ (q * (2:ℚ) ^ (52 - Int.log 2 q) + 1/2) * (2:ℚ) ^ (Int.log 2 q - 52) :=
      mul_le_mul_of_nonneg_right hm (by positivity)
    have hzz : (2:ℚ) ^ (52 - Int.log 2 q) * (2:ℚ) ^ (Int.log 2 q - 52) = 1 := by
      rw [← zpow_add₀ (by norm_num : (2:ℚ) ≠ 0)]
      norm_num
    have hstep : (1/2 : ℚ) * (2:ℚ) ^ (Int.log 2 q - 52)
        = (2:ℚ) ^ (Int.log 2 q - 53) := by
      have hh : (2:ℚ) ^ (Int.log 2 q - 52) = (2:ℚ) ^ (Int.log 2 q - 53) * 2 := by
        rw [← zpow_add_one₀ (by norm_num : (2:ℚ) ≠ 0)]
        congr 1
        omega
      rw [hh]
      ring
    have e53 : (2:ℚ) ^ (Int.log 2 q - 53) ≤ q * (2:ℚ) ^ (-53 : Int) := by
      have hsplit : (2:ℚ) ^ (Int.log 2 q - 53)
          = (2:ℚ) ^ (Int.log 2 q) * (2:ℚ) ^ (-53 : Int) := by
        rw [← zpow_add₀ (by norm_num : (2:ℚ) ≠ 0)]
        rfl
      rw [hsplit]
      exact mul_le_mul_of_nonneg_right h2e (by positivity)
    calc (pyRound (q * (2:ℚ) ^ (52 - Int.log 2 q)) : ℚ)
          * (2:ℚ) ^ (Int.log 2 q - 52)
        ≤ (q * (2:ℚ) ^ (52 - Int.log 2 q) + 1/2) * (2:ℚ) ^ (Int.log 2 q - 52) :=
          hkey
      _ = q * ((2:ℚ) ^ (52 - Int.log 2 q) * (2:ℚ) ^ (Int.log 2 q - 52))
            + (1/2) * (2:ℚ) ^ (Int.log 2 q - 52) := by ring
      _ = q + (2:ℚ) ^ (Int.log 2 q - 53) := by rw [hzz, hstep]; ring
      _ ≤ q + q * (2:ℚ) ^ (-53 : Int) := by linarith
      _ = q * (1 + (2:ℚ) ^ (-53 : Int)) := by ring

theorem fl53_eval (q : ℚ) (e : Int) (h0 : 0 < q) (h1 : (2:ℚ) ^ e ≤ q)
    (h2 : q < (2:ℚ) ^ (e + 1)) :
    fl53 q = (pyRound (q * (2:ℚ) ^ (52 - e)) : ℚ) * (2:ℚ) ^ (e - 52) := by
  have hb : ((2:ℕ):ℚ) = (2:ℚ) := by norm_num
  have ha : (2:ℚ) ^ (Int.log 2 q) ≤ q := by
    have := Int.zpow_log_le_self (b := 2) (R := ℚ) (by norm_num) h0
    rwa [hb] at this
  have hc : q < (2:ℚ) ^ (Int.log 2 q + 1) := by
    have := Int.lt_zpow_succ_log_self (b := 2) (R := ℚ) (by norm_num) q
    rwa [hb] at this
  have hmono : ∀ i j : Int, i ≤ j → (2:ℚ) ^ i ≤ (2:ℚ) ^ j := fun i j hij =>
    (zpow_le_zpow_iff_right₀ (by norm_num : (1:ℚ) < 2)).mpr hij
  have hlog : Int.log 2 q = e := by
    by_contra hne
    rcases lt_or_gt_of_ne hne with hlt | hgt
    · have hle : Int.log 2 q + 1 ≤ e := by omega
      have := hmono _ _ hle
      linarith
    · have hle : e + 1 ≤ Int.log 2 q := by omega
      have := hmono _ _ hle
      linarith
  unfold fl53
  rw [if_neg (not_le.mpr h0), hlog]

theorem pyRound_of_lt_half (q : ℚ) (z : Int) (h1 : (z : ℚ) ≤ q)
    (h2 : q < (z : ℚ) + 1/2) : pyRound q = z := by
  have hfl : ⌊q⌋ = z := Int.floor_eq_iff.mpr ⟨h1, by push_cast; linarith⟩
  unfold pyRound
  rw [hfl, if_pos (by push_cast; linarith)]

theorem pyRound_of_gt_half (q : ℚ) (z : Int) (h1 : (z : ℚ) + 1/2 < q)
    (h2 : q < (z : ℚ) + 1) : pyRound q = z + 1 := by
  have hfl : ⌊q⌋ = z := Int.floor_eq_iff.mpr ⟨by linarith, by push_cast; linarith⟩
  unfold pyRound
  rw [hfl, if_neg (by push_cast; linarith), if_pos (by push_cast; linarith)]

theorem pyRound_of_half (q : ℚ) (z : Int) (heq : q = (z : ℚ) + 1/2) :
    pyRound q = if z % 2 = 0 then z else z + 1 := by
  have hfl : ⌊q⌋ = z :=
    Int.floor_eq_iff.mpr ⟨by rw [heq]; linarith, by rw [heq]; push_cast; linarith⟩
  unfold pyRound
  rw [hfl, if_neg (by rw [heq]; push_cast; linarith),
    if_neg (by rw [heq]; push_cast; linarith)]

theorem indCount_more_indian (n : Nat) :
    indCount "more_indian" n = pyRound (fl53 (fl53 (n : ℚ) * double07)) := by
  simp [indCount, normalizeMix]

theorem indCount_more_global (n : Nat) :
    indCount "more_global" n = pyRound (fl53 (fl53 (n : ℚ) * double03)) := by
  simp [indCount, normalizeMix]

theorem indCount_fifty (n : Nat) : indCount "50_50" n = ((n / 2 : Nat) : Int) := by
  simp [indCount, normalizeMix]

theorem fl53_ten : fl53 ((10 : Nat) : ℚ) = 10 := by
  have h : ((10 : Nat) : ℚ) = (10 : ℚ) := by norm_num
  rw [h, fl53_eval 10 3 (by norm_num) (by norm_num) (by norm_num)]
  rw [show (10 : ℚ) * (2:ℚ) ^ ((52:Int) - 3) = ((5629499534213120 : Int) : ℚ) from by
    norm_num]
  rw [pyRound_intCast]
  norm_num

theorem fl53_ten07 : fl53 (fl53 ((10 : Nat) : ℚ) * double07) = 7 := by
  rw [fl53_ten]
  rw [show (10 : ℚ) * double07 = 31525197391593470 / 4503599627370496 from by
    norm_num [double07]]
  rw [fl53_eval _ 2 (by norm_num) (by norm_num) (by norm_num)]
  rw [show (31525197391593470 / 4503599627370496 : ℚ) * (2:ℚ) ^ ((52:Int) - 2)
      = ((7881299347898367 : Int) : ℚ) + 1/2 from by norm_num]
  rw [pyRound_of_half _ _ rfl, if_neg (by decide)]
  norm_num

theorem fl53_ten03 : fl53 (fl53 ((10 : Nat) : ℚ) * double03) = 3 := by
  rw [fl53_ten]
  rw [show (10 : ℚ) * double03 = 54043195528445950 / 18014398509481984 from by
    norm_num [double03]]
  rw [fl53_eval _ 1 (by norm_num) (by norm_num) (by norm_num)]
  rw [pyRound_of_gt_half _ 6755399441055743 (by norm_num) (by norm_num)]
  norm_num

theorem fl53_fortyfive : fl53 ((45 : Nat) : ℚ) = 45 := by
  have h : ((45 : Nat) : ℚ) = (45 : ℚ) := by norm_num
  rw [h, fl53_eval 45 5 (by norm_num) (by norm_num) (by norm_num)]
  rw [show (45 : ℚ) * (2:ℚ) ^ ((52:Int) - 5) = ((6333186975989760 : Int) : ℚ) from by
    norm_num]
  rw [pyRound_intCast]
  norm_num

theorem fl53_fortyfive07 :
    fl53 (fl53 ((45 : Nat) : ℚ) * double07) = 8866461766385663 / 281474976710656 := by
  rw [fl53_fortyfive]
  rw [show (45 : ℚ) * double07 = 141863388262170615 / 4503599627370496 from by
    norm_num [double07]]
  rw [fl53_eval _ 4 (by norm_num) (by norm_num) (by norm_num)]
  rw [pyRound_of_lt_half _ 8866461766385663 (by norm_num) (by norm_num)]
  norm_num

theorem indCount_ten_local : indCount "more_indian" 10 = 7 := by
  rw [indCount_more_indian, fl53_ten07]
  rw [show (7:ℚ) = ((7 : Int) : ℚ) from by norm_num]
  exact pyRound_intCast 7

theorem indCount_ten_global : indCount "more_global" 10 = 3 := by
  rw [indCount_more_global, fl53_ten03]
  rw [show (3:ℚ) = ((3 : Int) : ℚ) from by norm_num]
  exact pyRound_intCast 3

theorem indCount_fortyfive : indCount "more_indian" 45 = 31 := by
  rw [indCount_more_indian, fl53_fortyfive07]
  exact pyRound_of_lt_half _ 31 (by norm_num) (by norm_num)

/-- C5 counterexample: at total count 45 the program computes a local
share of 31 — the binary64 product `45 * 0.7` is slightly below 31.5 and
rounds down — while the claimed exact-arithmetic formula gives
`round(45 × 0.7) = round(31.5) = 32`, so the claimed identity
`local_n = round(n × 0.7)` fails at n = 45. -/
theorem mix_policy_counterexample :
    (resolveMix "more_indian" 45).1 = 31
    ∧ pyRound ((45 : ℚ) * (7/10)) = 32
    ∧ (resolveMix "more_indian" 45).1 ≠ pyRound ((45 : ℚ) * (7/10)) := by
  have h1 : (resolveMix "more_indian" 45).1 = 31 := by
    simp [resolveMix, indCount_fortyfive]
  have h2 : pyRound ((45 : ℚ) * (7/10)) = 32 := by
    rw [show (45 : ℚ) * (7/10) = ((31 : Int) : ℚ) + 1/2 from by norm_num]
    rw [pyRound_of_half _ _ rfl, if_neg (by decide)]
    decide
  exact ⟨h1, h2, by rw [h1, h2]; decide⟩

/-- C5 (amended): the mix resolver computes `round` of the IEEE-754
binary64 product of the count with the double nearest 0.7 for
`more_indian` (0.3 for `more_global`) and `n // 2` for `50_50`, with the
global share being the exact remainder; at n = 10 the resolved pairs are
(7, 3) and (3, 7), while at n = 45 the float product yields (31, 14)
rather than the exact-arithmetic (32, 13). -/
theorem mix_policy_formula (n : Nat) :
    (resolveMix "more_indian" n).1 = pyRound (fl53 (fl53 (n : ℚ) * double07))
    ∧ (resolveMix "more_global" n).1 = pyRound (fl53 (fl53 (n : ℚ) * double03))
    ∧ (resolveMix "50_50" n).1 = ((n / 2 : Nat) : Int)
    ∧ (resolveMix "more_indian" n).2 = (n : Int) - (resolveMix "more_indian" n).1
    ∧ (resolveMix "more_global" n).2 = (n : Int) - (resolveMix "more_global" n).1
    ∧ (resolveMix "50_50" n).2 = (n : Int) - (resolveMix "50_50" n).1
    ∧ resolveMix "more_indian" 10 = (7, 3)
    ∧ resolveMix "more_global" 10 = (3, 7)
    ∧ resolveMix "more_indian" 45 = (31, 14) := by
  refine ⟨by simp [resolveMix, indCount_more_indian],
    by simp [resolveMix, indCount_more_global],
    by simp [resolveMix, indCount_fifty],
    rfl, rfl, rfl, ?_, ?_, ?_⟩
  · unfold resolveMix
    rw [indCount_ten_local]
    norm_num
  · unfold resolveMix
    rw [indCount_ten_global]
    norm_num
  · unfold resolveMix
    rw [indCount_fortyfive]
    norm_num

/-- C10: both resolved per-pool counts always lie between 0 and the
requested total, for every mix preference string. -/
theorem mix_counts_within_range (mix : String) (n : Nat) :
    0 ≤ (resolveMix mix n).1 ∧ (resolveMix mix n).1 ≤ (n : Int)
    ∧ 0 ≤ (resolveMix mix n).2 ∧ (resolveMix mix n).2 ≤ (n : Int) := by
  have hn0 : (0 : ℚ) ≤ (n : ℚ) := by positivity
  have heps : (0 : ℚ) ≤ (2:ℚ) ^ (-53 : Int) := by positivity
  have hc0 : 0 ≤ fl53 (n : ℚ) := fl53_nonneg _ hn0
  have hc1 : fl53 (n : ℚ) ≤ (n : ℚ) * (1 + (2:ℚ) ^ (-53 : Int)) := fl53_le_mul _ hn0
  have key : ∀ c : ℚ, 0 ≤ c →
      c * ((1 + (2:ℚ) ^ (-53 : Int)) * (1 + (2:ℚ) ^ (-53 : Int))) ≤ 1 →
      0 ≤ pyRound (fl53 (fl53 (n : ℚ) * c))
        ∧ pyRound (fl53 (fl53 (n : ℚ) * c)) ≤ (n : Int) := by
    intro c hc hcb
    have hq0 : 0 ≤ fl53 (n : ℚ) * c := mul_nonneg hc0 hc
    have h1 := fl53_le_mul (fl53 (n : ℚ) * c) hq0
    have h2 : fl53 (fl53 (n : ℚ) * c) ≤ (n : ℚ) := by
      have ha := mul_le_mul_of_nonneg_right hc1 hc
      have hb := mul_le_mul_of_nonneg_right ha
        (by positivity : (0:ℚ) ≤ 1 + (2:ℚ) ^ (-53 : Int))
      have h5 := mul_le_mul_of_nonneg_left hcb hn0
      nlinarith [h1, hb, h5]
    have hfl0 : 0 ≤ fl53 (fl53 (n : ℚ) * c) := fl53_nonneg _ hq0
    exact pyRound_bounds_of _ n hfl0 h2
  have h07 : double07 * ((1 + (2:ℚ) ^ (-53 : Int)) * (1 + (2:ℚ) ^ (-53 : Int))) ≤ 1 := by
    rw [show ((2:ℚ) ^ (-53 : Int)) = 1 / 9007199254740992 from by norm_num]
    norm_num [double07]
  have h03 : double03 * ((1 + (2:ℚ) ^ (-53 : Int)) * (1 + (2:ℚ) ^ (-53 : Int))) ≤ 1 := by
    rw [show ((2:ℚ) ^ (-53 : Int)) = 1 / 9007199254740992 from by norm_num]
    norm_num [double03]
  have hbounds : 0 ≤ indCount mix n ∧ indCount mix n ≤ (n : Int) := by
    unfold indCount
    split_ifs
    · exact key double07 (by norm_num [double07]) h07
    · exact key double03 (by norm_num [double03]) h03
    · constructor
      · exact_mod_cast Nat.zero_le (n / 2)
      · exact_mod_cast Nat.div_le_self n 2
  refine ⟨hbounds.1, hbounds.2, ?_, ?_⟩ <;>
    · simp only [resolveMix]
      omega

/-- C6: `infer_mix` lowercases and strips the text and then classifies by
case-insensitive substring match: an "ind" marker yields `more_indian`,
otherwise a "glob"/"holly"/"other" marker yields `more_global`, otherwise
the result is `50_50`; in particular "more indian stuff" classifies as
`more_indian` and "hollywood only" as `more_global`. -/
theorem infer_mix_classification (text : String) :
    (strIn "ind" (pyStrip (pyLower text)) = true → infer_mix text = "more_indian")
    ∧ (strIn "ind" (pyStrip (pyLower text)) = false →
        (strIn "glob" (pyStrip (pyLower text)) || strIn "holly" (pyStrip (pyLower text))
          || strIn "other" (pyStrip (pyLower text))) = true →
        infer_mix text = "more_global")
    ∧ (strIn "ind" (pyStrip (pyLower text)) = false →
        (strIn "glob" (pyStrip (pyLower text)) || strIn "holly" (pyStrip (pyLower text))
          || strIn "other" (pyStrip (pyLower text))) = false →
        infer_mix text = "50_50")
    ∧ infer_mix "more indian stuff" = "more_indian"
    ∧ infer_mix "hollywood only" = "more_global" := by
  refine ⟨?_, ?_, ?_, by decide, by decide⟩
  · intro h; simp [infer_mix, h]
  · intro h1 h2; simp [infer_mix, h1, h2]
  · intro h1 h2; simp [infer_mix, h1, h2]

/-- C6 witness: the classification theorem applied at concrete texts,
discharging the substring hypotheses by evaluation. -/
theorem infer_mix_classification_witness :
    infer_mix "indiana" = "more_indian" ∧ infer_mix "go global" = "more_global" :=
  ⟨(infer_mix_classification "indiana").1 (by decide),
   (infer_mix_classification "go global").2.1 (by decide) (by decide)⟩

theorem sum_map_split (ys : List Int) (f g : Int → Nat) :
    (ys.map (fun y => f y + g y)).sum = (ys.map f).sum + (ys.map g).sum := by
  induction ys with
  | nil => simp
  | cons y ys ih =>
    simp only [List.map_cons, List.sum_cons, ih]
    omega

theorem rrPass_length_le (bucket : Int → List Movie) (idx : Nat)
    (ys : List Int) (need : Nat) :
    (rrPass bucket idx ys need).length
      ≤ (ys.map (fun y => if idx < (bucket y).length then 1 else 0)).sum := by
  induction ys generalizing need with
  | nil => simp [rrPass]
  | cons y ys ih =>
    cases hb : (bucket y)[idx]? with
    | none =>
      have hlen : ¬ idx < (bucket y).length := by
        have := List.getElem?_eq_none_iff.mp hb; omega
      rw [show rrPass bucket idx (y :: ys) need = rrPass bucket idx ys need by
        simp [rrPass, hb]]
      simp only [List.map_cons, List.sum_cons, if_neg hlen, Nat.zero_add]
      exact ih need
    | some m =>
      have hlt : idx < (bucket y).length := by
        by_contra hc
        push_neg at hc
        rw [List.getElem?_eq_none_iff.mpr hc] at hb
        exact Option.noConfusion hb
      rw [show rrPass bucket idx (y :: ys) need
          = if need ≤ 1 then [m] else m :: rrPass bucket idx ys (need - 1) by
        simp [rrPass, hb]]
      simp only [List.map_cons, List.sum_cons, if_pos hlt]
      split_ifs
      · simp
      · simp only [List.length_cons]
        have := ih (need - 1)
        omega

theorem sum_sub_succ (bucket : Int → List Movie) (ys : List Int) (idx : Nat) :
    (ys.map (fun y => (bucket y).length - idx)).sum
      = (ys.map (fun y => (bucket y).length - (idx + 1))).sum
        + (ys.map (fun y => if idx < (bucket y).length then 1 else 0)).sum := by
  induction ys with
  | nil => simp
  | cons y ys ih =>
    simp only [List.map_cons, List.sum_cons]
    rw [ih]
    by_cases h : idx < (bucket y).length
    · rw [if_pos h]; omega
    · rw [if_neg h]; omega

theorem rrLoop_length_le (bucket : Int → List Movie) (years : List Int) (n : Nat) :
    ∀ (fuel idx : Nat) (picked : List Movie),
      (rrLoop bucket years n fuel idx picked).length
        ≤ picked.length + (years.map (fun y => (bucket y).length - idx)).sum := by
  intro fuel
  induction fuel with
  | zero =>
    intro idx picked
    simp [rrLoop]
  | succ fuel ih =>
    intro idx picked
    by_cases h1 : picked.length < n
    · by_cases h2 : rrPass bucket idx years (n - picked.length) = []
      · rw [show rrLoop bucket years n (fuel + 1) idx picked = picked by
          simp [rrLoop, h1, h2]]
        omega
      · rw [show rrLoop bucket years n (fuel + 1) idx picked
            = rrLoop bucket years n fuel (idx + 1)
                (picked ++ rrPass bucket idx years (n - picked.length)) by
          simp [rrLoop, h1, h2]]
        have hrec := ih (idx + 1) (picked ++ rrPass bucket idx years (n - picked.length))
        have hpass := rrPass_length_le bucket idx years (n - picked.length)
        have hshift := sum_sub_succ bucket years idx
        simp only [List.length_append] at hrec
        omega
    · rw [show rrLoop bucket years n (fuel + 1) idx picked = picked by
        simp [rrLoop, h1]]
      omega

theorem sum_indicator_count (ys : List Int) (c : Int) (h : ys.Nodup) :
    (ys.map (fun y => if c = y then 1 else 0)).sum = if c ∈ ys then 1 else 0 := by
  induction ys with
  | nil => simp
  | cons y ys ih =>
    simp only [List.map_cons, List.sum_cons]
    rcases List.nodup_cons.mp h with ⟨hy, hys⟩
    by_cases hc : c = y
    · subst hc
      rw [if_pos rfl, if_pos (List.mem_cons_self c ys), ih hys, if_neg hy]
    · rw [if_neg hc, ih hys]
      by_cases hm : c ∈ ys
      · rw [if_pos hm, if_pos (List.mem_cons_of_mem _ hm)]
      · rw [if_neg hm, if_neg (by simp [hc, hm])]

theorem sum_filter_year (ys : List Int) (l : List Movie) (hnd : ys.Nodup)
    (hcov : ∀ m ∈ l, ∀ c : Int, movieYear m = some c → c ∈ ys) :
    (ys.map (fun y => (l.filter (fun m => decide (movieYear m = some y))).length)).sum
      = (l.filter (fun m => (movieYear m).isSome)).length := by
  induction l with
  | nil => simp
  | cons a l ih =>
    have hcov' : ∀ m ∈ l, ∀ c : Int, movieYear m = some c → c ∈ ys :=
      fun m hm => hcov m (List.mem_cons_of_mem _ hm)
    cases hy : movieYear a with
    | none =>
      rw [show (ys.map fun y =>
            ((a :: l).filter (fun m => decide (movieYear m = some y))).length).sum
          = (ys.map fun y =>
            (l.filter (fun m => decide (movieYear m = some y))).length).sum from by
        refine congrArg List.sum (List.map_congr_left fun y _ => ?_)
        simp [List.filter_cons, hy]]
      rw [ih hcov']
      simp [List.filter_cons, hy]
    | some c =>
      have hlen : ∀ y : Int,
          ((a :: l).filter (fun m => decide (movieYear m = some y))).length
            = (if c = y then 1 else 0)
              + (l.filter (fun m => decide (movieYear m = some y))).length := by
        intro y
        by_cases hcy : c = y
        · subst hcy
          simp [List.filter_cons, hy]
          omega
        · simp [List.filter_cons, hy, hcy]
      rw [show (ys.map fun y =>
            ((a :: l).filter (fun m => decide (movieYear m = some y))).length).sum
          = (ys.map fun y => (if c = y then 1 else 0)
              + (l.filter (fun m => decide (movieYear m = some y))).length).sum from
        congrArg List.sum (List.map_congr_left fun y _ => hlen y)]
      rw [sum_map_split, sum_indicator_count ys c hnd, ih hcov']
      rw [if_pos (hcov a (List.mem_cons_self a l) c hy)]
      simp [List.filter_cons, hy]
      omega

theorem yearsDesc_nodup (movies : List Movie) : (yearsDesc movies).Nodup := by
  unfold yearsDesc
  rw [List.nodup_reverse]
  exact (List.perm_insertionSort _ _).symm.nodup (List.nodup_dedup _)

theorem mem_yearsDesc (movies : List Movie) (y : Int) :
    y ∈ yearsDesc movies ↔ ∃ m ∈ movies, movieYear m = some y := by
  unfold yearsDesc
  rw [List.mem_reverse, (List.perm_insertionSort _ _).mem_iff, List.mem_dedup,
    List.mem_filterMap]

/-- C1: the year-balanced sampler never returns more than `n` records;
on the bucketed path its output is also bounded by the number of unique,
dateable records of the pool; and when no record has a parseable year it
returns exactly the first `n` records of the shuffled deduplicated
pool. -/
theorem balanced_sample_length_spec (shuffle : List Movie → List Movie)
    (hshuf : ∀ l, List.Perm (shuffle l) l) (pool : List Movie) (n : Nat) :
    (balanced_sample_by_year shuffle pool n).length ≤ n
    ∧ (yearsDesc (unique_movies pool) ≠ [] →
        (balanced_sample_by_year shuffle pool n).length ≤ dateableCount pool)
    ∧ (yearsDesc (unique_movies pool) = [] →
        balanced_sample_by_year shuffle pool n
          = (shuffle (unique_movies pool)).take n) := by
  by_cases hyears : yearsDesc (unique_movies pool) = []
  · have hb : balanced_sample_by_year shuffle pool n
        = (shuffle (unique_movies pool)).take n := by
      simp [balanced_sample_by_year, hyears]
    refine ⟨?_, fun h => absurd hyears h, fun _ => hb⟩
    rw [hb]
    exact List.length_take_le n _
  · have hb : balanced_sample_by_year shuffle pool n
        = (rrLoop (bucketOf shuffle (unique_movies pool))
            (yearsDesc (unique_movies pool)) n (n + 1) 0 []).take n := by
      simp [balanced_sample_by_year, hyears]
    refine ⟨by rw [hb]; exact List.length_take_le n _, fun _ => ?_,
      fun h => absurd h hyears⟩
    rw [hb]
    have h1 : ((rrLoop (bucketOf shuffle (unique_movies pool))
        (yearsDesc (unique_movies pool)) n (n + 1) 0 []).take n).length
        ≤ (rrLoop (bucketOf shuffle (unique_movies pool))
            (yearsDesc (unique_movies pool)) n (n + 1) 0 []).length := by
      rw [List.length_take]
      omega
    have h2 := rrLoop_length_le (bucketOf shuffle (unique_movies pool))
      (yearsDesc (unique_movies pool)) n (n + 1) 0 []
    have h3 : ((yearsDesc (unique_movies pool)).map
          (fun y => (bucketOf shuffle (unique_movies pool) y).length - 0)).sum
        = ((yearsDesc (unique_movies pool)).map
          (fun y => ((unique_movies pool).filter
            (fun m => decide (movieYear m = some y))).length)).sum := by
      refine congrArg List.sum (List.map_congr_left fun y _ => ?_)
      rw [Nat.sub_zero]
      exact (hshuf _).length_eq
    have h4 := sum_filter_year (yearsDesc (unique_movies pool)) (unique_movies pool)
      (yearsDesc_nodup _)
      (fun m hm c hc => (mem_yearsDesc _ c).mpr ⟨m, hm, hc⟩)
    unfold dateableCount
    simp only [List.length_nil] at h2
    omega

/-- C1 witness: the sampler bounds evaluated on a concrete pool with the
identity shuffle. -/
theorem balanced_sample_length_spec_witness :
    (balanced_sample_by_year (fun l => l) [mov1, mov2, mov1] 3).length ≤ 3
    ∧ (yearsDesc (unique_movies [mov1, mov2, mov1]) ≠ [] →
        (balanced_sample_by_year (fun l => l) [mov1, mov2, mov1] 3).length
          ≤ dateableCount [mov1, mov2, mov1])
    ∧ (yearsDesc (unique_movies [mov1, mov2, mov1]) = [] →
        balanced_sample_by_year (fun l => l) [mov1, mov2, mov1] 3
          = ((fun l : List Movie => l) (unique_movies [mov1, mov2, mov1])).take 3) :=
  balanced_sample_length_spec (fun l => l) (fun l => List.Perm.refl l)
    [mov1, mov2, mov1] 3

theorem rrLoop_append (bucket : Int → List Movie) (years : List Int) (n : Nat) :
    ∀ (fuel idx : Nat) (picked : List Movie),
      ∃ rest, rrLoop bucket years n fuel idx picked = picked ++ rest := by
  intro fuel
  induction fuel with
  | zero =>
    intro idx picked
    exact ⟨[], by simp [rrLoop]⟩
  | succ fuel ih =>
    intro idx picked
    by_cases h1 : picked.length < n
    · by_cases h2 : rrPass bucket idx years (n - picked.length) = []
      · exact ⟨[], by simp [rrLoop, h1, h2]⟩
      · obtain ⟨rest, hrest⟩ :=
          ih (idx + 1) (picked ++ rrPass bucket idx years (n - picked.length))
        exact ⟨rrPass bucket idx years (n - picked.length) ++ rest, by
          simp [rrLoop, h1, h2, hrest]⟩
    · exact ⟨[], by simp [rrLoop, h1]⟩

theorem rrPass_zero_map (bucket : Int → List Movie) :
    ∀ (ys : List Int) (need : Nat), 1 ≤ need →
      (∀ y ∈ ys, ∃ mv, (bucket y)[0]? = some mv ∧ movieYear mv = some y) →
      (rrPass bucket 0 ys need).map movieYear = (ys.take need).map some := by
  intro ys
  induction ys with
  | nil =>
    intro need _ _
    simp [rrPass]
  | cons y ys ih =>
    intro need hneed hbk
    obtain ⟨mv, hm0, hmy⟩ := hbk y (List.mem_cons_self y ys)
    by_cases h1 : need ≤ 1
    · have hne : need = 1 := by omega
      subst hne
      rw [show rrPass bucket 0 (y :: ys) 1 = [mv] by simp [rrPass, hm0]]
      simp [hmy]
    · rw [show rrPass bucket 0 (y :: ys) need = mv :: rrPass bucket 0 ys (need - 1) by
        simp [rrPass, hm0, h1]]
      have hih := ih (need - 1) (by omega)
        (fun z hz => hbk z (List.mem_cons_of_mem _ hz))
      have htake : (y :: ys).take need = y :: ys.take (need - 1) := by
        cases need with
        | zero => omega
        | succ k => simp
      rw [htake]
      simp [hmy, hih]

theorem rrLoop_head_structure (bucket : Int → List Movie) (ys : List Int)
    (n : Nat) (hn1 : 1 ≤ n) :
    ∃ rest, rrLoop bucket ys n (n + 1) 0 [] = rrPass bucket 0 ys n ++ rest := by
  have hn0 : 0 < n := hn1
  by_cases h2 : rrPass bucket 0 ys n = []
  · refine ⟨[], ?_⟩
    rw [show rrLoop bucket ys n (n + 1) 0 [] = [] by simp [rrLoop, hn0, h2]]
    simp [h2]
  · obtain ⟨rest, hrest⟩ :=
      rrLoop_append bucket ys n n 1 ([] ++ rrPass bucket 0 ys n)
    refine ⟨rest, ?_⟩
    rw [show rrLoop bucket ys n (n + 1) 0 []
        = rrLoop bucket ys n n 1 ([] ++ rrPass bucket 0 ys n) by
      simp [rrLoop, hn0, h2]]
    simpa using hrest

/-- C2: on a pool whose deduplicated year buckets all hold at least
`m ≥ 1` records, with `k` years and a target `n ≤ k * m`, and for every
outcome of the per-bucket shuffles, the first `min n k` records of the
sample carry the first `min n k` years of the descending year list, so
their years are pairwise distinct (one record from every year before any
second record from a year); when `k ≤ n` every year appears among the
first `k` records; and the sampler returns at most `n` records, without
error when it runs short. -/
theorem balanced_sample_round_robin_fairness
    (shuffle : List Movie → List Movie) (hshuf : ∀ l, List.Perm (shuffle l) l)
    (pool : List Movie) (n m : Nat) (hm : 1 ≤ m)
    (hbuckets : ∀ y ∈ yearsDesc (unique_movies pool),
      m ≤ ((unique_movies pool).filter
        (fun mv => decide (movieYear mv = some y))).length)
    (hn : n ≤ (yearsDesc (unique_movies pool)).length * m) :
    ((balanced_sample_by_year shuffle pool n).take
        (yearsDesc (unique_movies pool)).length).map movieYear
      = ((yearsDesc (unique_movies pool)).take
          (min n (yearsDesc (unique_movies pool)).length)).map some
    ∧ (((balanced_sample_by_year shuffle pool n).take
        (yearsDesc (unique_movies pool)).length).map movieYear).Nodup
    ∧ ((yearsDesc (unique_movies pool)).length ≤ n →
        ∀ y ∈ yearsDesc (unique_movies pool),
          some y ∈ ((balanced_sample_by_year shuffle pool n).take
            (yearsDesc (unique_movies pool)).length).map movieYear)
    ∧ (balanced_sample_by_year shuffle pool n).length ≤ n := by
  rcases Nat.eq_zero_or_pos n with hn0 | hn1
  · subst hn0
    have hsamp : balanced_sample_by_year shuffle pool 0 = [] := by
      simp [balanced_sample_by_year]
    rw [hsamp]
    refine ⟨by simp, by simp, ?_, by simp⟩
    intro hk y hy
    have h0 : yearsDesc (unique_movies pool) = [] :=
      List.eq_nil_of_length_eq_zero (by omega)
    rw [h0] at hy
    exact absurd hy (List.not_mem_nil y)
  · have hys_ne : yearsDesc (unique_movies pool) ≠ [] := by
      intro h0
      rw [h0] at hn
      simp at hn
      omega
    have hbk : ∀ y ∈ yearsDesc (unique_movies pool),
        ∃ mv, (bucketOf shuffle (unique_movies pool) y)[0]? = some mv
          ∧ movieYear mv = some y := by
      intro y hy
      have h1 := hbuckets y hy
      have hperm := hshuf ((unique_movies pool).filter
        (fun mv => decide (movieYear mv = some y)))
      have hlen : (bucketOf shuffle (unique_movies pool) y).length
          = ((unique_movies pool).filter
              (fun mv => decide (movieYear mv = some y))).length := by
        unfold bucketOf
        exact hperm.length_eq
      have h0 : 0 < (bucketOf shuffle (unique_movies pool) y).length := by omega
      have hsome : (bucketOf shuffle (unique_movies pool) y)[0]?
          = some ((bucketOf shuffle (unique_movies pool) y)[0]) :=
        List.getElem?_eq_some_iff.mpr ⟨h0, rfl⟩
      have hmem : (bucketOf shuffle (unique_movies pool) y)[0]
          ∈ bucketOf shuffle (unique_movies pool) y :=
        List.getElem?_mem hsome
      have hmem2 : (bucketOf shuffle (unique_movies pool) y)[0]
          ∈ (unique_movies pool).filter (fun mv => decide (movieYear mv = some y)) :=
        hperm.mem_iff.mp hmem
      exact ⟨_, hsome, of_decide_eq_true (List.mem_filter.mp hmem2).2⟩
    obtain ⟨rest, hrest⟩ :=
      rrLoop_head_structure (bucketOf shuffle (unique_movies pool))
        (yearsDesc (unique_movies pool)) n hn1
    have hpassmap := rrPass_zero_map (bucketOf shuffle (unique_movies pool))
      (yearsDesc (unique_movies pool)) n hn1 hbk
    have hpasslen : min (yearsDesc (unique_movies pool)).length n
        = (rrPass (bucketOf shuffle (unique_movies pool)) 0
            (yearsDesc (unique_movies pool)) n).length := by
      have hll := congrArg List.length hpassmap
      simp only [List.length_map, List.length_take] at hll
      omega
    have hsamp : balanced_sample_by_year shuffle pool n
        = (rrLoop (bucketOf shuffle (unique_movies pool))
            (yearsDesc (unique_movies pool)) n (n + 1) 0 []).take n := by
      simp [balanced_sample_by_year, hys_ne]
    have htk : (yearsDesc (unique_movies pool)).take n
        = (yearsDesc (unique_movies pool)).take
            (min n (yearsDesc (unique_movies pool)).length) := by
      rcases le_total n (yearsDesc (unique_movies pool)).length with h | h
      · rw [min_eq_left h]
      · rw [min_eq_right h, List.take_length, List.take_of_length_le h]
    have hkey : ((balanced_sample_by_year shuffle pool n).take
          (yearsDesc (unique_movies pool)).length).map movieYear
        = ((yearsDesc (unique_movies pool)).take
            (min n (yearsDesc (unique_movies pool)).length)).map some := by
      rw [hsamp, hrest, List.take_take, hpasslen, List.take_left, hpassmap, htk]
    have hnodup : (((balanced_sample_by_year shuffle pool n).take
        (yearsDesc (unique_movies pool)).length).map movieYear).Nodup := by
      rw [hkey]
      exact ((yearsDesc_nodup (unique_movies pool)).sublist
        (List.take_sublist _ _)).map (Option.some_injective _)
    have hcover : (yearsDesc (unique_movies pool)).length ≤ n →
        ∀ y ∈ yearsDesc (unique_movies pool),
          some y ∈ ((balanced_sample_by_year shuffle pool n).take
            (yearsDesc (unique_movies pool)).length).map movieYear := by
      intro hkn y hy
      rw [hkey, min_eq_right hkn, List.take_length]
      exact List.mem_map_of_mem some hy
    have hlenle : (balanced_sample_by_year shuffle pool n).length ≤ n := by
      rw [hsamp]
      exact List.length_take_le n _
    exact ⟨hkey, hnodup, hcover, hlenle⟩

/-- C2 witness: the fairness theorem evaluated on a two-year pool with
one record per year, target 2, and the identity shuffle. -/
theorem balanced_sample_round_robin_fairness_witness :
    ((balanced_sample_by_year (fun l => l) [mov1, mov2] 2).take
        (yearsDesc (unique_movies [mov1, mov2])).length).map movieYear
      = ((yearsDesc (unique_movies [mov1, mov2])).take
          (min 2 (yearsDesc (unique_movies [mov1, mov2])).length)).map some
    ∧ (((balanced_sample_by_year (fun l => l) [mov1, mov2] 2).take
        (yearsDesc (unique_movies [mov1, mov2])).length).map movieYear).Nodup
    ∧ ((yearsDesc (unique_movies [mov1, mov2])).length ≤ 2 →
        ∀ y ∈ yearsDesc (unique_movies [mov1, mov2]),
          some y ∈ ((balanced_sample_by_year (fun l => l) [mov1, mov2] 2).take
            (yearsDesc (unique_movies [mov1, mov2])).length).map movieYear)
    ∧ (balanced_sample_by_year (fun l => l) [mov1, mov2] 2).length ≤ 2 :=
  balanced_sample_round_robin_fairness (fun l => l) (fun l => List.Perm.refl l)
    [mov1, mov2] 2 1 (by decide) (by decide) (by decide)

theorem bind_ok_eq {α β : Type} (a : α) (f : α → Except String β) :
    (Except.ok a >>= f) = f a := rfl

theorem bind_error_eq {α β : Type} (e : String) (f : α → Except String β) :
    ((Except.error e : Except String α) >>= f) = Except.error e := rfl

theorem fetchConcat_ok_of_forall {α : Type} (fetch : α → Except String (List Movie)) :
    ∀ l : List α, (∀ a ∈ l, ∃ v, fetch a = Except.ok v) →
      ∃ w, fetchConcat fetch l = Except.ok w := by
  intro l
  induction l with
  | nil =>
    intro _
    exact ⟨[], rfl⟩
  | cons a as ih =>
    intro h
    obtain ⟨v, hv⟩ := h a (List.mem_cons_self a as)
    obtain ⟨w, hw⟩ := ih (fun b hb => h b (List.mem_cons_of_mem _ hb))
    refine ⟨v ++ w, ?_⟩
    unfold fetchConcat
    rw [hv, bind_ok_eq, hw, bind_ok_eq]
    rfl

theorem fetchConcat_first_error {α : Type} (fetch : α → Except String (List Movie))
    (e : String) :
    ∀ (l1 : List α) (a : α) (l2 : List α),
      (∀ b ∈ l1, ∃ v, fetch b = Except.ok v) →
      fetch a = Except.error e →
      fetchConcat fetch (l1 ++ a :: l2) = Except.error e := by
  intro l1
  induction l1 with
  | nil =>
    intro a l2 _ ha
    show fetchConcat fetch (a :: l2) = Except.error e
    unfold fetchConcat
    rw [ha]
    rfl
  | cons b bs ih =>
    intro a l2 h ha
    obtain ⟨v, hv⟩ := h b (List.mem_cons_self b bs)
    have hrec := ih a l2 (fun x hx => h x (List.mem_cons_of_mem _ hx)) ha
    show fetchConcat fetch (b :: (bs ++ a :: l2)) = Except.error e
    unfold fetchConcat
    rw [hv, bind_ok_eq, hrec]
    rfl

theorem fetchConcat_ok_forall {α : Type} (fetch : α → Except String (List Movie)) :
    ∀ (l : List α) (w : List Movie), fetchConcat fetch l = Except.ok w →
      ∀ a ∈ l, ∃ v, fetch a = Except.ok v := by
  intro l
  induction l with
  | nil =>
    intro w _ a ha
    exact absurd ha (List.not_mem_nil a)
  | cons b bs ih =>
    intro w h a ha
    unfold fetchConcat at h
    cases hb : fetch b with
    | error e =>
      rw [hb, bind_error_eq] at h
      exact Except.noConfusion h
    | ok v =>
      rw [hb, bind_ok_eq] at h
      cases hc : fetchConcat fetch bs with
      | error e =>
        rw [hc, bind_error_eq] at h
        exact Except.noConfusion h
      | ok w2 =>
        rcases List.mem_cons.mp ha with rfl | ha2
        · exact ⟨v, hb⟩
        · exact ih w2 hc a ha2

theorem build_eq_of_pools_error (shuffle : List Movie → List Movie) (g : Gateway)
    (prefs : Prefs) (count : Nat) (e : String)
    (h : buildPools g prefs = Except.error e) :
    build_recommendations shuffle g prefs count = Except.error e := by
  unfold build_recommendations
  rw [h]
  rfl

theorem build_ok_pools (shuffle : List Movie → List Movie) (g : Gateway)
    (prefs : Prefs) (count : Nat) (res : List Movie)
    (h : build_recommendations shuffle g prefs count = Except.ok res) :
    ∃ pools, buildPools g prefs = Except.ok pools := by
  unfold build_recommendations at h
  cases hp : buildPools g prefs with
  | error e =>
    rw [hp, bind_error_eq] at h
    exact Except.noConfusion h
  | ok pools => exact ⟨pools, rfl⟩

theorem poolsFromFetches_global_lang (indianRaw globalRaw : List Movie)
    (actorRaw : Option (List Movie)) (mv : Movie)
    (hm : mv ∈ (poolsFromFetches indianRaw globalRaw actorRaw).2) :
    langOf mv ∉ INDIAN_LANG_CODES := by
  cases actorRaw with
  | none =>
    simp only [poolsFromFetches] at hm
    have := (List.mem_filter.mp hm).2
    simpa using this
  | some am =>
    simp only [poolsFromFetches] at hm
    rcases List.mem_append.mp hm with h | h
    · have := (List.mem_filter.mp h).2
      simpa using this
    · have := (List.mem_filter.mp h).2
      simpa using this

/-- C8: whenever the pool builder succeeds, no record of the returned
global pool has an original language (lowercased) inside the Indian
language partition: region results are explicitly language-filtered and
the actor boost appends to the global pool only records outside the
partition. -/
theorem global_pool_excludes_indian_languages (g : Gateway) (prefs : Prefs)
    (ip gp : List Movie) (h : buildPools g prefs = Except.ok (ip, gp)) :
    ∀ mv ∈ gp, langOf mv ∉ INDIAN_LANG_CODES := by
  intro mv hmv
  unfold buildPools at h
  cases hg : g.genres with
  | error e =>
    rw [hg, bind_error_eq] at h
    exact Except.noConfusion h
  | ok gm =>
    rw [hg, bind_ok_eq] at h
    cases hir : fetchConcat
        (fun lp => g.discoverLang lp.1 lp.2 (genreIdOf prefs gm)) langPages with
    | error e =>
      rw [hir, bind_error_eq] at h
      exact Except.noConfusion h
    | ok ir =>
      rw [hir, bind_ok_eq] at h
      cases hgr : fetchConcat
          (fun rp => g.discoverRegion rp.1 rp.2 (genreIdOf prefs gm)) regionPages with
      | error e =>
        rw [hgr, bind_error_eq] at h
        exact Except.noConfusion h
      | ok gr =>
        rw [hgr, bind_ok_eq] at h
        cases har : actorFetch g prefs with
        | error e =>
          rw [har, bind_error_eq] at h
          exact Except.noConfusion h
        | ok ar =>
          rw [har, bind_ok_eq] at h
          have h2 : poolsFromFetches ir gr ar = (ip, gp) := Except.ok.inj h
          refine poolsFromFetches_global_lang ir gr ar mv ?_
          rw [h2]
          exact hmv

/-- C8 witness: the invariant applied to a concrete successful gateway
whose region results hold one Indian-language and one global record. -/
theorem global_pool_excludes_indian_languages_witness :
    langOf mov1 ∉ INDIAN_LANG_CODES :=
  global_pool_excludes_indian_languages gOk noPrefs [] [mov1] rfl mov1
    (by decide)

/-- C7: any failing gateway fetch aborts the whole recommendation request
with exactly that fetch error, and the core never swallows a gateway
error.  The conjuncts cover, in the order the calls are made: a failing
genre-catalog call; a failing language-discovery call (all calls before
it succeeding); a failing region-discovery call; a failing person search;
a failing actor-page fetch; and conversely, whenever a recommendation
list is returned, every call the control flow reached succeeded. -/
theorem gateway_error_propagates (shuffle : List Movie → List Movie)
    (g : Gateway) (prefs : Prefs) (count : Nat) (e : String) :
    (g.genres = Except.error e →
      build_recommendations shuffle g prefs count = Except.error e)
    ∧ (∀ gm l1 lp l2, g.genres = Except.ok gm →
        langPages = l1 ++ lp :: l2 →
        (∀ b ∈ l1, ∃ v, g.discoverLang b.1 b.2 (genreIdOf prefs gm) = Except.ok v) →
        g.discoverLang lp.1 lp.2 (genreIdOf prefs gm) = Except.error e →
        build_recommendations shuffle g prefs count = Except.error e)
    ∧ (∀ gm l1 rp l2, g.genres = Except.ok gm →
        (∀ b ∈ langPages, ∃ v, g.discoverLang b.1 b.2 (genreIdOf prefs gm) = Except.ok v) →
        regionPages = l1 ++ rp :: l2 →
        (∀ b ∈ l1, ∃ v, g.discoverRegion b.1 b.2 (genreIdOf prefs gm) = Except.ok v) →
        g.discoverRegion rp.1 rp.2 (genreIdOf prefs gm) = Except.error e →
        build_recommendations shuffle g prefs count = Except.error e)
    ∧ (∀ gm, g.genres = Except.ok gm →
        (∀ b ∈ langPages, ∃ v, g.discoverLang b.1 b.2 (genreIdOf prefs gm) = Except.ok v) →
        (∀ b ∈ regionPages, ∃ v, g.discoverRegion b.1 b.2 (genreIdOf prefs gm) = Except.ok v) →
        prefs.fav_actor.getD "" ≠ "" →
        g.personId (prefs.fav_actor.getD "") = Except.error e →
        build_recommendations shuffle g prefs count = Except.error e)
    ∧ (∀ gm p l1 pg l2, g.genres = Except.ok gm →
        (∀ b ∈ langPages, ∃ v, g.discoverLang b.1 b.2 (genreIdOf prefs gm) = Except.ok v) →
        (∀ b ∈ regionPages, ∃ v, g.discoverRegion b.1 b.2 (genreIdOf prefs gm) = Except.ok v) →
        prefs.fav_actor.getD "" ≠ "" →
        g.personId (prefs.fav_actor.getD "") = Except.ok (some p) →
        ([1, 2, 3] : List Nat) = l1 ++ pg :: l2 →
        (∀ b ∈ l1, ∃ v, g.actorPage p b = Except.ok v) →
        g.actorPage p pg = Except.error e →
        build_recommendations shuffle g prefs count = Except.error e)
    ∧ (∀ res, build_recommendations shuffle g prefs count = Except.ok res →
        ∃ gm, g.genres = Except.ok gm
          ∧ (∀ b ∈ langPages, ∃ v, g.discoverLang b.1 b.2 (genreIdOf prefs gm) = Except.ok v)
          ∧ (∀ b ∈ regionPages, ∃ v, g.discoverRegion b.1 b.2 (genreIdOf prefs gm) = Except.ok v)
          ∧ (prefs.fav_actor.getD "" ≠ "" →
              ∃ pid, g.personId (prefs.fav_actor.getD "") = Except.ok pid
                ∧ ∀ p, pid = some p →
                    ∀ pg ∈ ([1, 2, 3] : List Nat), ∃ v, g.actorPage p pg = Except.ok v)) := by
  refine ⟨?_, ?_, ?_, ?_, ?_, ?_⟩
  · intro hg
    unfold build_recommendations buildPools
    rw [hg]
    rfl
  · intro gm l1 lp l2 hg hsplit hok hfail
    apply build_eq_of_pools_error
    unfold buildPools
    rw [hg, bind_ok_eq]
    have hfc : fetchConcat (fun b => g.discoverLang b.1 b.2 (genreIdOf prefs gm))
        langPages = Except.error e := by
      rw [hsplit]
      exact fetchConcat_first_error _ e l1 lp l2 hok hfail
    rw [hfc]
    rfl
  · intro gm l1 rp l2 hg hlang hsplit hok hfail
    obtain ⟨ir, hir⟩ := fetchConcat_ok_of_forall
      (fun b => g.discoverLang b.1 b.2 (genreIdOf prefs gm)) langPages hlang
    apply build_eq_of_pools_error
    unfold buildPools
    rw [hg, bind_ok_eq, hir, bind_ok_eq]
    have hfc : fetchConcat (fun b => g.discoverRegion b.1 b.2 (genreIdOf prefs gm))
        regionPages = Except.error e := by
      rw [hsplit]
      exact fetchConcat_first_error _ e l1 rp l2 hok hfail
    rw [hfc]
    rfl
  · intro gm hg hlang hregion hfav hpf
    obtain ⟨ir, hir⟩ := fetchConcat_ok_of_forall
      (fun b => g.discoverLang b.1 b.2 (genreIdOf prefs gm)) langPages hlang
    obtain ⟨gr, hgr⟩ := fetchConcat_ok_of_forall
      (fun b => g.discoverRegion b.1 b.2 (genreIdOf prefs gm)) regionPages hregion
    apply build_eq_of_pools_error
    unfold buildPools
    rw [hg, bind_ok_eq, hir, bind_ok_eq, hgr, bind_ok_eq]
    have haf : actorFetch g prefs = Except.error e := by
      unfold actorFetch
      rw [if_neg hfav, hpf]
      rfl
    rw [haf]
    rfl
  · intro gm p l1 pg l2 hg hlang hregion hfav hpid hsplit hok hfail
    obtain ⟨ir, hir⟩ := fetchConcat_ok_of_forall
      (fun b => g.discoverLang b.1 b.2 (genreIdOf prefs gm)) langPages hlang
    obtain ⟨gr, hgr⟩ := fetchConcat_ok_of_forall
      (fun b => g.discoverRegion b.1 b.2 (genreIdOf prefs gm)) regionPages hregion
    apply build_eq_of_pools_error
    unfold buildPools
    rw [hg, bind_ok_eq, hir, bind_ok_eq, hgr, bind_ok_eq]
    have haf : actorFetch g prefs = Except.error e := by
      unfold actorFetch
      rw [if_neg hfav, hpid, bind_ok_eq]
      show (fetchConcat (fun x => g.actorPage p x) ([1, 2, 3] : List Nat)
          >>= fun am => pure (some am)) = Except.error e
      have hfc : fetchConcat (fun x => g.actorPage p x) ([1, 2, 3] : List Nat)
          = Except.error e := by
        rw [hsplit]
        exact fetchConcat_first_error _ e l1 pg l2 hok hfail
      rw [hfc]
      rfl
    rw [haf]
    rfl
  · intro res hres
    obtain ⟨pools, hp⟩ := build_ok_pools shuffle g prefs count res hres
    unfold buildPools at hp
    cases hg : g.genres with
    | error e2 =>
      rw [hg, bind_error_eq] at hp
      exact Except.noConfusion hp
    | ok gm =>
      rw [hg, bind_ok_eq] at hp
      cases hir : fetchConcat
          (fun lp => g.discoverLang lp.1 lp.2 (genreIdOf prefs gm)) langPages with
      | error e2 =>
        rw [hir, bind_error_eq] at hp
        exact Except.noConfusion hp
      | ok ir =>
        rw [hir, bind_ok_eq] at hp
        cases hgr : fetchConcat
            (fun rp => g.discoverRegion rp.1 rp.2 (genreIdOf prefs gm)) regionPages with
        | error e2 =>
          rw [hgr, bind_error_eq] at hp
          exact Except.noConfusion hp
        | ok gr =>
          rw [hgr, bind_ok_eq] at hp
          cases har : actorFetch g prefs with
          | error e2 =>
            rw [har, bind_error_eq] at hp
            exact Except.noConfusion hp
          | ok ar =>
            refine ⟨gm, rfl,
              fetchConcat_ok_forall
                (fun lp => g.discoverLang lp.1 lp.2 (genreIdOf prefs gm))
                langPages ir hir,
              fetchConcat_ok_forall
                (fun rp => g.discoverRegion rp.1 rp.2 (genreIdOf prefs gm))
                regionPages gr hgr, ?_⟩
            intro hfav
            unfold actorFetch at har
            rw [if_neg hfav] at har
            cases hpid : g.personId (prefs.fav_actor.getD "") with
            | error e2 =>
              rw [hpid, bind_error_eq] at har
              exact Except.noConfusion har
            | ok pid =>
              rw [hpid, bind_ok_eq] at har
              refine ⟨pid, rfl, ?_⟩
              intro p hpp pg hpg
              subst hpp
              have har2 : (fetchConcat (fun x => g.actorPage p x) ([1, 2, 3] : List Nat)
                  >>= fun am => pure (some am)) = Except.ok ar := har
              cases hfc : fetchConcat (fun x => g.actorPage p x) ([1, 2, 3] : List Nat) with
              | error e2 =>
                rw [hfc, bind_error_eq] at har2
                exact Except.noConfusion har2
              | ok am =>
                exact fetchConcat_ok_forall
                  (fun x => g.actorPage p x) ([1, 2, 3] : List Nat) am hfc pg hpg

/-- C7 witness: a gateway that fails on exactly one language-discovery
call (language "ta", page 2) and succeeds everywhere else makes the whole
recommendation request fail with that call's error. -/
theorem gateway_error_propagates_witness :
    build_recommendations (fun l => l) gMid noPrefs 10 = Except.error "net" :=
  (gateway_error_propagates (fun l => l) gMid noPrefs 10 "net").2.1 []
    [("hi", 1), ("hi", 2), ("ta", 1)] ("ta", 2)
    [("te", 1), ("te", 2), ("ml", 1), ("ml", 2), ("kn", 1), ("kn", 2)]
    rfl rfl
    (by
      intro b hb
      fin_cases hb <;> exact ⟨[], rfl⟩)
    rfl
